import Mathlib

/-!
Verification of the HTTP request syntax parser (src/httpRequestParser.ts).
Strings are modelled as lists of characters.  JavaScript string operations
(trim, split on a one-character separator, startsWith, toLowerCase) are given
explicit executable definitions, the `os.EOL` delimiter is modelled as a
single newline character, and the WHATWG URL constructor used by the parser
is modelled by `parseURL` below.
-/

namespace HttpSyntax

instance {ε α : Type} [DecidableEq ε] [DecidableEq α] : DecidableEq (Except ε α) :=
  fun x y =>
    match x, y with
    | .error a, .error b =>
      if h : a = b then .isTrue (h ▸ rfl)
      else .isFalse (fun hc => h (Except.error.inj hc))
    | .ok a, .ok b =>
      if h : a = b then .isTrue (h ▸ rfl)
      else .isFalse (fun hc => h (Except.ok.inj hc))
    | .error _, .ok _ => .isFalse (fun hc => Except.noConfusion hc)
    | .ok _, .error _ => .isFalse (fun hc => Except.noConfusion hc)

abbrev Str := List Char

def chars (s : String) : Str := s.toList

/-- ASCII model of the JavaScript whitespace class used by `trim` and `\s`. -/
def isWS (c : Char) : Bool :=
  c == ' ' || c == '\t' || c == '\n' || c == '\r' || c == '\x0b' || c == '\x0c'

/-- JavaScript `String.prototype.trim`. -/
def trim (l : Str) : Str :=
  ((l.dropWhile isWS).reverse.dropWhile isWS).reverse

/-- JavaScript `String.prototype.split` with a one-character separator:
`"".split(c)` is `[""]`, and separators at the ends produce empty pieces. -/
def splitC (c : Char) : Str → List Str
  | [] => [[]]
  | x :: xs =>
    if x = c then [] :: splitC c xs
    else
      match splitC c xs with
      | [] => [[x]]
      | p :: ps => (x :: p) :: ps

/-- JavaScript `Array.prototype.join` with an explicit separator. -/
def joinSep (sep : Str) : List Str → Str
  | [] => []
  | [p] => p
  | p :: q :: ps => p ++ sep ++ joinSep sep (q :: ps)

def lowerStr (l : Str) : Str := l.map Char.toLower

/-- Test of the regular expression `COMMENT_LINE_PREFIX = /^\/\/\s*/`. -/
def isCommentLine (l : Str) : Bool := (chars "//").isPrefixOf l

/-- The JavaScript code applies the comment test to a possibly-undefined next
line; `undefined` is coerced to the string "undefined", which never matches. -/
def isCommentNext : Option Str → Bool
  | none => false
  | some l => isCommentLine l

/-- Test of `LONG_REQUEST_LINE_BREAK_PREFIX = /^\s*[&\?/]/`: optional leading
whitespace followed by `&`, `?` or `/`. -/
def isContinuation (l : Str) : Bool :=
  match l.dropWhile isWS with
  | [] => false
  | c :: _ => c == '&' || c == '?' || c == '/'

def contNext : Option Str → Bool
  | none => false
  | some l => isContinuation l

/-- JavaScript truthiness of a possibly-undefined string. -/
def truthy : Option Str → Bool
  | none => false
  | some l => l ≠ []

inductive ParseState where
  | comment
  | requestLine
  | header
  | body
  deriving DecidableEq

/-- The three line groups produced by the classification loop. -/
structure Groups where
  requestLines : List Str
  headerLines : List Str
  bodyLines : List Str
  deriving DecidableEq

/-- The while-loop of `parseHttpRequest` (lines 76-126 of the source):
each line is consumed trimmed, comment lines overlay the current state
remembering the previous one, and a blank line after the request line or the
headers is consumed and switches to the body state. -/
def classifyLoop : List Str → ParseState → Option ParseState → Groups → Groups
  | [], _, _, g => g
  | line :: rest, state0, prev0, g =>
    let cur := trim line
    let next : Option Str := rest.head?.map trim
    if isCommentLine cur then
      -- `prevState = state; state = Comment;` followed by the Comment case
      if isCommentNext next then
        classifyLoop rest .comment (some state0) g
      else
        classifyLoop rest state0 none g
    else
      match state0 with
      | .comment =>
        if isCommentNext next then
          classifyLoop rest .comment prev0 g
        else
          classifyLoop rest (prev0.getD .requestLine) none g
      | .requestLine =>
        let g1 := { g with requestLines := g.requestLines ++ [cur] }
        if next.isNone || contNext next then
          classifyLoop rest .requestLine prev0 g1
        else if truthy next then
          classifyLoop rest .header prev0 g1
        else
          match rest with
          | [] => g1
          | _ :: rest2 => classifyLoop rest2 .body prev0 g1
      | .header =>
        let g1 := { g with headerLines := g.headerLines ++ [cur] }
        if truthy next then
          classifyLoop rest .header prev0 g1
        else
          match rest with
          | [] => g1
          | _ :: rest2 => classifyLoop rest2 .body prev0 g1
      | .body =>
        classifyLoop rest .body prev0 { g with bodyLines := g.bodyLines ++ [cur] }

def emptyGroups : Groups := ⟨[], [], []⟩

/-- `message.split(EOL)` with `os.EOL` modelled as a single newline. -/
def splitLines (msg : Str) : List Str := splitC '\n' msg

def classify (msg : Str) : Groups :=
  classifyLoop (splitLines msg) .requestLine none emptyGroups

/-! ### Model of the WHATWG URL constructor

`parseRequestLine` calls `new URL(requestUri)` and catches the failure.
`parseURL` models that constructor without a base URL: a valid scheme is
required (so any input that is empty, starts with `/`, or contains no `:`
after a leading letter run fails, as in the browser algorithm).  Special
schemes are parsed into host, path and query; non-special schemes get an
opaque path.  Percent-encoding, fragments, default-port elision, host case
normalization and `file:` URLs are outside the scope of this model. -/

structure URLParts where
  href : Str
  pathname : Str
  search : Str
  deriving DecidableEq

def isSchemeChar (c : Char) : Bool :=
  c.isAlpha || c.isDigit || c == '+' || c == '-' || c == '.'

def specialSchemes : List Str :=
  [chars "http", chars "https", chars "ws", chars "wss", chars "ftp"]

def parseURL (input : Str) : Option URLParts :=
  match trim input with
  | [] => none
  | c :: rest =>
    if ¬ c.isAlpha then none
    else
      let schemeChars := (c :: rest).takeWhile isSchemeChar
      match (c :: rest).drop schemeChars.length with
      | ':' :: r =>
        let scheme := lowerStr schemeChars
        if scheme ∈ specialSchemes then
          -- special authority: skip any run of slashes, then parse the host
          let r1 := r.dropWhile (fun c => c == '/' || c == '\\')
          let host := r1.takeWhile (fun c => ¬ (c == '/' || c == '?' || c == '#' || c == '\\'))
          if host = [] then none
          else
            let tail1 := r1.drop host.length
            let path := tail1.takeWhile (fun c => ¬ (c == '?' || c == '#'))
            let pathname := if path = [] then ['/'] else path
            let search :=
              match tail1.drop path.length with
              | '?' :: q =>
                let q1 := q.takeWhile (fun c => ¬ (c == '#'))
                if q1 = [] then [] else '?' :: q1
              | _ => []
            some ⟨scheme ++ chars "://" ++ host ++ pathname ++ search, pathname, search⟩
        else if scheme = chars "file" then none
        else
          -- non-special scheme: opaque path up to the query
          let path := r.takeWhile (fun c => ¬ (c == '?' || c == '#'))
          let search :=
            match r.drop path.length with
            | '?' :: q =>
              let q1 := q.takeWhile (fun c => ¬ (c == '#'))
              if q1 = [] then [] else '?' :: q1
            | _ => []
          some ⟨scheme ++ [':'] ++ path ++ search, path, search⟩
      | _ => none

/-! ### Request line (`parseRequestLine`, source lines 144-205) -/

structure RequestLine where
  method : Str
  pathname : Str
  uri : Str
  version : Str
  deriving DecidableEq

/-- The alternatives of `REQUEST_LINE_PREFIX`, in the order they appear in the
regular expression (note: this list contains PATCH). -/
def regexMethods : List Str :=
  [chars "GET", chars "POST", chars "PUT", chars "DELETE", chars "PATCH",
   chars "HEAD", chars "OPTIONS", chars "CONNECT", chars "TRACE"]

/-- The `methods` constant of the source (the declared `Method` enum). -/
def methods : List Str :=
  [chars "GET", chars "HEAD", chars "POST", chars "PUT", chars "DELETE",
   chars "CONNECT", chars "OPTIONS", chars "TRACE"]

/-- `REQUEST_LINE_PREFIX.exec(line)`: a leading method token followed by one
whitespace character; on a match the remainder after token-plus-whitespace is
returned. -/
def matchMethod (line : Str) : Option (Str × Str) :=
  regexMethods.findSome? fun m =>
    if m.isPrefixOf line ∧ ((line.drop m.length).head?.elim false isWS) then
      some (m, line.drop (m.length + 1))
    else none

/-- The method/requestUri split of lines 160-169: on a regex match the matched
method and the remainder, otherwise the default GET with the whole line. -/
def methodSplit (line : Str) : Str × Str :=
  match matchMethod line with
  | some (m, r) => (m, r)
  | none => (chars "GET", line)

def httpToken : Str := chars "HTTP/"

/-- Whether `HTTP_VERSION = /\s+HTTP\/.*$/` matches at the head of `l`:
at least one whitespace character followed immediately by `HTTP/`. -/
def versionMatchAt (l : Str) : Bool :=
  match l with
  | [] => false
  | c :: _ => isWS c && httpToken.isPrefixOf (l.dropWhile isWS)

/-- Index of the leftmost match of `HTTP_VERSION`, as computed by `exec`. -/
def findVersionIdx : Str → Option Nat
  | [] => none
  | c :: cs =>
    if versionMatchAt (c :: cs) then some 0
    else (findVersionIdx cs).map (· + 1)

/-- Lines 174-179: strip a trailing HTTP version (the match runs to the end of
the line), returning the remaining request URI and the trimmed version, or the
default version `HTTP/1.1`. -/
def splitVersion (u : Str) : Str × Str :=
  match findVersionIdx u with
  | some i => (u.take i, trim (u.drop i))
  | none => (u, chars "HTTP/1.1")

/-- `host.toString().split(':')[1]` of line 190. -/
def hostPort (host : Str) : Option Str := (splitC ':' host).get? 1

/-- `host.toString().replace(/:(443|8443|80)$/, '')` of line 192. -/
def stripDefaultPort (host : Str) : Str :=
  if (chars ":443").isSuffixOf host then host.take (host.length - 4)
  else if (chars ":8443").isSuffixOf host then host.take (host.length - 5)
  else if (chars ":80").isSuffixOf host then host.take (host.length - 3)
  else host

/-- Lines 181-197: try the URL constructor; on failure compose an absolute URI
from a truthy Host header when the target starts with `/`, otherwise fail.
Returns the pair (pathname, uri). -/
def resolveURI (requestUri : Str) (host : Option Str) : Except String (Str × Str) :=
  match parseURL requestUri with
  | some u => .ok (u.pathname ++ u.search, u.href)
  | none =>
    match host with
    | some h =>
      if h ≠ [] ∧ (chars "/").isPrefixOf requestUri then
        let port := hostPort h
        let scheme :=
          if port = some (chars "443") ∨ port = some (chars "8443") then chars "https"
          else chars "http"
        .ok (requestUri, scheme ++ chars "://" ++ stripDefaultPort h ++ requestUri)
      else .error "Host header is required for relative URI"
    | none => .error "Host header is required for relative URI"

/-- The request URI remaining after the method split, trimming, and version
stripping (the value fed to the URL constructor). -/
def requestUriOf (line : Str) : Str :=
  (splitVersion (trim (methodSplit line).2)).1

def parseRequestLine (line : Str) (host : Option Str) : Except String RequestLine :=
  match resolveURI (requestUriOf line) host with
  | .error e => .error e
  | .ok (pathname, uri) =>
    .ok ⟨(methodSplit line).1, pathname, uri, (splitVersion (trim (methodSplit line).2)).2⟩

/-! ### Headers (`parseHeaders`, source lines 207-253) -/

/-- Insertion-ordered association list modelling a JavaScript object with
string keys: `headers` maps the first-seen casing of a field name to its
(possibly combined) value, `headerNames` maps the lowercased name to the
first-seen casing. -/
abbrev Headers := List (Str × Str)

def assocFind (m : Headers) (k : Str) : Option Str :=
  (m.find? (fun p => p.1 = k)).map (·.2)

/-- JavaScript property assignment `m[k] = v`: update in place if the key
exists, otherwise append (insertion order preserved). -/
def assocSet : Headers → Str → Str → Headers
  | [], k, v => [(k, v)]
  | (k0, v0) :: t, k, v =>
    if k0 = k then (k0, v) :: t else (k0, v0) :: assocSet t k v

/-- Test of `HEADER_LINE_FIELD_NAME = /^[a-zA-Z-_]+$/`. -/
def validName (l : Str) : Bool :=
  decide (l ≠ []) && l.all (fun c => c.isAlpha || c == '-' || c == '_')

/-- The punctuation allow-list of `HEADER_LINE_FIELD_VALUE`. -/
def valuePunct : Str :=
  ['_', ' ', ':', ';', '.', ',', '\\', '/', Char.ofNat 34, Char.ofNat 39,
   '?', '!', '(', ')', Char.ofNat 123, Char.ofNat 125, '[', ']', '@', '<',
   '>', '=', '-', '+', '*', '#', '$', '&', Char.ofNat 96, '|', '~', '^', '%']

/-- Test of `HEADER_LINE_FIELD_VALUE` (zero or more allow-listed characters). -/
def validValue (l : Str) : Bool :=
  l.all (fun c => c.isAlpha || c.isDigit || valuePunct.contains c)

/-- The re-split-and-trim of line 247: `value.split(separator).map(trim)`. -/
def normalizeEntries (sep : Char) (v : Str) : List Str :=
  (splitC sep v).map trim

/-- `array.join(separator + ' ')` of line 248. -/
def joinSepSp (sep : Char) (parts : List Str) : Str :=
  joinSep [sep, ' '] parts

/-- One iteration of the `forEach` of lines 221-250, acting on the pair of
objects (headers, headerNames). -/
def headerStep (acc : Headers × Headers) (line : Str) : Except String (Headers × Headers) :=
  let parts := splitC ':' line
  let fieldName := parts.headI
  let fieldValue := trim (joinSep [':'] parts.tail)
  if ¬ validName fieldName then .error "Header field-name is not valid"
  else if ¬ validValue fieldValue then .error "Header field-value is not valid"
  else
    let normalized := lowerStr fieldName
    match assocFind acc.2 normalized with
    | none =>
      .ok (assocSet acc.1 fieldName fieldValue, assocSet acc.2 normalized fieldName)
    | some headerName =>
      let sep : Char := if normalized = chars "cookie" then ';' else ','
      let existingValues :=
        match assocFind acc.1 headerName with
        | none => []
        | some v => normalizeEntries sep v
      .ok (assocSet acc.1 headerName (joinSepSp sep (existingValues ++ [fieldValue])), acc.2)

def parseHeadersLoop : List Str → Headers × Headers → Except String (Headers × Headers)
  | [], acc => .ok acc
  | l :: ls, acc => Except.bind (headerStep acc l) (parseHeadersLoop ls)

def parseHeaders (headerLines : List Str) : Except String Headers :=
  match parseHeadersLoop headerLines ([], []) with
  | .error e => .error e
  | .ok acc => .ok acc.1

/-- `getHeader` of lines 267-277: case-insensitive lookup returning the stored
value (an empty value is returned as the empty string, which is falsy at the
call sites). -/
def getHeader (hs : Headers) (name : Str) : Option Str :=
  if name = [] then none
  else
    match hs.find? (fun p => lowerStr p.1 = lowerStr name) with
    | none => none
    | some p => some p.2

/-! ### Body (`parseBody`, source lines 255-265) -/

def parseBody (lines : List Str) (contentType : Option Str) : Except String (Option Str) :=
  if lines = [] then .ok none
  else if contentType = none then .error "No Content-Type header set for body"
  else .ok (some (trim (joinSep [' '] lines)))

/-! ### The full pipeline (`parseHttpRequest`, source lines 66-142) -/

structure HttpRequest where
  method : Str
  pathname : Str
  uri : Str
  version : Str
  headers : Headers
  body : Option Str
  deriving DecidableEq

/-- `requestLines.map(trim).join('')` of line 131. -/
def rawRequestLine (g : Groups) : Str := (g.requestLines.map trim).flatten

/-- Lines 128-141, after the classification loop. -/
def parseFromGroups (g : Groups) : Except String HttpRequest :=
  match parseHeaders g.headerLines with
  | .error e => .error e
  | .ok headers =>
    let host := getHeader headers (chars "host")
    match parseRequestLine (rawRequestLine g) host with
    | .error e => .error e
    | .ok rl =>
      let contentType := getHeader headers (chars "content-type")
      match parseBody g.bodyLines contentType with
      | .error e => .error e
      | .ok b => .ok ⟨rl.method, rl.pathname, rl.uri, rl.version, headers, b⟩

def parseHttpRequestLines (lines : List Str) : Except String HttpRequest :=
  parseFromGroups (classifyLoop lines .requestLine none emptyGroups)

/-- The three line groups of an input document. -/
def docGroups (message : String) : Groups :=
  classifyLoop (splitLines (chars message)) .requestLine none emptyGroups

def parseHttpRequest (message : String) : Except String HttpRequest :=
  parseHttpRequestLines (splitLines (chars message))

/-- A header line `name: value` as authored in a document. -/
def mkHeaderLine (n v : Str) : Str := n ++ ':' :: ' ' :: v

/-! ### Lemmas about trimming -/

/-- Removal of trailing whitespace (the second half of `trim`). -/
def rdrop (l : Str) : Str := (l.reverse.dropWhile isWS).reverse

theorem trim_def (l : Str) : trim l = rdrop (l.dropWhile isWS) := rfl

theorem rdrop_nil : rdrop [] = [] := rfl

theorem dropWhile_ws_idem (l : Str) :
    (l.dropWhile isWS).dropWhile isWS = l.dropWhile isWS := by
  cases h : l.dropWhile isWS with
  | nil => rfl
  | cons c cs =>
    have hh := List.head?_dropWhile_not isWS l
    rw [h] at hh
    simp only [List.head?] at hh
    rw [List.dropWhile_cons_of_neg (by simp [hh])]

theorem rdrop_cons (x : Char) (xs : Str) :
    rdrop (x :: xs) =
      if rdrop xs = [] then (if isWS x then [] else [x]) else x :: rdrop xs := by
  have h1 : (x :: xs).reverse = xs.reverse ++ [x] := by simp
  by_cases he : rdrop xs = []
  · have he2 : xs.reverse.dropWhile isWS = [] := by
      have := congrArg List.reverse he
      simpa [rdrop] using this
    simp only [rdrop, h1, List.dropWhile_append, he2, he, if_true]
    by_cases hx : isWS x
    · simp [List.dropWhile_cons, hx]
    · simp [List.dropWhile_cons, hx]
  · have he2 : xs.reverse.dropWhile isWS ≠ [] := by
      intro hcon
      exact he (by simp [rdrop, hcon])
    rw [rdrop, h1, List.dropWhile_append,
      if_neg (by simpa [List.isEmpty_iff] using he2), if_neg he]
    simp [rdrop]

theorem rdrop_idem (l : Str) : rdrop (rdrop l) = rdrop l := by
  simp [rdrop, List.reverse_reverse, dropWhile_ws_idem]

theorem ldrop_rdrop_comm (l : Str) :
    (rdrop l).dropWhile isWS = rdrop (l.dropWhile isWS) := by
  induction l with
  | nil => rfl
  | cons x xs ih =>
    by_cases he : rdrop xs = []
    · by_cases hx : isWS x
      · have h0 : (rdrop xs).dropWhile isWS = [] := by simp [he]
        rw [ih] at h0
        simp [rdrop_cons, he, hx, List.dropWhile_cons, h0]
      · simp [rdrop_cons, he, hx, List.dropWhile_cons]
    · by_cases hx : isWS x
      · rw [rdrop_cons, if_neg he, List.dropWhile_cons_of_pos (by simpa using hx), ih,
          List.dropWhile_cons_of_pos (by simpa using hx)]
      · simp [rdrop_cons, he, hx, List.dropWhile_cons]

theorem trim_trim (l : Str) : trim (trim l) = trim l := by
  rw [trim_def, trim_def, ldrop_rdrop_comm, dropWhile_ws_idem, rdrop_idem]

theorem trim_cons_ws {c : Char} (l : Str) (h : isWS c = true) :
    trim (c :: l) = trim l := by
  simp [trim_def, List.dropWhile_cons, h]

theorem length_dropWhile_ws_le (l : Str) : (l.dropWhile isWS).length ≤ l.length :=
  (List.dropWhile_sublist (l := l) (p := isWS)).length_le

theorem dropWhile_eq_self_of_length {l : Str}
    (h : (l.dropWhile isWS).length = l.length) : l.dropWhile isWS = l := by
  cases l with
  | nil => rfl
  | cons x xs =>
    by_cases hx : isWS x
    · exfalso
      rw [List.dropWhile_cons_of_pos hx] at h
      have := length_dropWhile_ws_le xs
      simp [List.length_cons] at h
      omega
    · exact List.dropWhile_cons_of_neg hx

theorem length_rdrop_le (l : Str) : (rdrop l).length ≤ l.length := by
  have := length_dropWhile_ws_le l.reverse
  simpa [rdrop] using this

theorem trim_eq_self_parts {l : Str} (h : trim l = l) :
    l.dropWhile isWS = l ∧ rdrop l = l := by
  have h1 : (l.dropWhile isWS).length = l.length := by
    have hle1 := length_dropWhile_ws_le l
    have hle2 := length_rdrop_le (l.dropWhile isWS)
    rw [← trim_def] at hle2
    rw [h] at hle2
    omega
  have h2 : l.dropWhile isWS = l := dropWhile_eq_self_of_length h1
  refine ⟨h2, ?_⟩
  rw [trim_def, h2] at h
  exact h

theorem head_not_ws {c : Char} {l : Str} (h : (c :: l).dropWhile isWS = c :: l) :
    isWS c = false := by
  by_contra hc
  rw [List.dropWhile_cons_of_pos (by simpa using hc)] at h
  have h2 := length_dropWhile_ws_le l
  have h3 := congrArg List.length h
  simp [List.length_cons] at h3
  omega

theorem rdrop_eq_self_reverse {l : Str} (h : rdrop l = l) :
    l.reverse.dropWhile isWS = l.reverse := by
  have := congrArg List.reverse h
  simpa [rdrop] using this

theorem trim_append {a b : Str} (ha : trim a = a) (hb : trim b = b) :
    trim (a ++ b) = a ++ b := by
  obtain ⟨da, ra⟩ := trim_eq_self_parts ha
  obtain ⟨db, rb⟩ := trim_eq_self_parts hb
  have h1 : (a ++ b).dropWhile isWS = a ++ b := by
    cases a with
    | nil => simpa using db
    | cons c cs =>
      have hc : isWS c = false := head_not_ws da
      simp [List.dropWhile_cons, hc]
  rw [trim_def, h1]
  cases hb0 : b.reverse with
  | nil =>
    have : b = [] := by simpa using congrArg List.reverse hb0
    subst this
    simpa using ra
  | cons d ds =>
    have hrb := rdrop_eq_self_reverse rb
    rw [hb0] at hrb
    have hd : isWS d = false := head_not_ws hrb
    have h2 : (a ++ b).reverse = d :: (ds ++ a.reverse) := by
      simp [List.reverse_append, hb0]
    simp only [rdrop, h2, List.dropWhile_cons, hd]
    simp [← h2]

theorem trim_flatten {L : List Str} (h : ∀ x ∈ L, trim x = x) :
    trim L.flatten = L.flatten := by
  induction L with
  | nil => rfl
  | cons x xs ih =>
    rw [List.flatten_cons]
    exact trim_append (h x (by simp)) (ih (fun y hy => h y (by simp [hy])))

theorem not_mem_trim {c : Char} {l : Str} (h : c ∉ l) : c ∉ trim l := by
  intro hc
  apply h
  have h1 : c ∈ (l.dropWhile isWS).reverse.dropWhile isWS := by
    simpa [trim, List.mem_reverse] using hc
  have h2 := (List.dropWhile_sublist (l := (l.dropWhile isWS).reverse) (p := isWS)).mem h1
  rw [List.mem_reverse] at h2
  exact (List.dropWhile_sublist (l := l) (p := isWS)).mem h2

/-! ### Lemmas about splitting and joining -/

theorem splitC_ne_nil (c : Char) (l : Str) : splitC c l ≠ [] := by
  cases l with
  | nil => simp [splitC]
  | cons x xs =>
    by_cases h : x = c
    · simp [splitC, h]
    · simp only [splitC, if_neg h]
      cases splitC c xs <;> simp

theorem splitC_cons_eq (c : Char) (x : Char) (l : Str) (h : ¬ x = c) :
    splitC c (x :: l) = (x :: (splitC c l).headI) :: (splitC c l).tail := by
  simp only [splitC, if_neg h]
  cases hs : splitC c l with
  | nil => exact absurd hs (splitC_ne_nil c l)
  | cons p ps => simp

theorem splitC_cons_self (c : Char) (l : Str) :
    splitC c (c :: l) = [] :: splitC c l := by
  simp [splitC]

theorem not_mem_of_mem_splitC (c : Char) (l : Str) :
    ∀ p ∈ splitC c l, c ∉ p := by
  induction l with
  | nil => intro p hp; simp [splitC] at hp; simp [hp]
  | cons x xs ih =>
    intro p hp
    by_cases h : x = c
    · rw [h, splitC_cons_self] at hp
      rcases List.mem_cons.mp hp with h1 | h1
      · simp [h1]
      · exact ih p h1
    · rw [splitC_cons_eq c x xs h] at hp
      rcases List.mem_cons.mp hp with h1 | h1
      · subst h1
        intro hm
        rcases List.mem_cons.mp hm with h2 | h2
        · exact h h2.symm
        · cases hs : splitC c xs with
          | nil => exact absurd hs (splitC_ne_nil c xs)
          | cons q qs =>
            exact ih q (by simp [hs]) (by rw [hs] at h2; simpa using h2)
      · cases hs : splitC c xs with
        | nil => exact absurd hs (splitC_ne_nil c xs)
        | cons q qs =>
          rw [hs] at h1
          exact ih p (by simp [hs]; right; simpa using h1)

theorem splitC_eq_single {c : Char} {l : Str} (h : c ∉ l) : splitC c l = [l] := by
  induction l with
  | nil => rfl
  | cons x xs ih =>
    have hx : ¬ x = c := fun hc => h (by simp [hc])
    have hxs : c ∉ xs := fun hc => h (by simp [hc])
    rw [splitC_cons_eq c x xs hx, ih hxs]
    simp

theorem splitC_append_cons {c : Char} {a : Str} (r : Str) (h : c ∉ a) :
    splitC c (a ++ c :: r) = a :: splitC c r := by
  induction a with
  | nil => simpa using splitC_cons_self c r
  | cons x xs ih =>
    have hx : ¬ x = c := fun hc => h (by simp [hc])
    have hxs : c ∉ xs := fun hc => h (by simp [hc])
    rw [List.cons_append, splitC_cons_eq c x _ hx, ih hxs]
    simp

theorem joinSep_cons (s : Str) (p q : Str) (ps : List Str) :
    joinSep s (p :: q :: ps) = p ++ s ++ joinSep s (q :: ps) := rfl

theorem joinSep_splitC (c : Char) (l : Str) :
    joinSep [c] (splitC c l) = l := by
  induction l with
  | nil => rfl
  | cons x xs ih =>
    by_cases h : x = c
    · subst h
      rw [splitC_cons_self]
      cases hs : splitC x xs with
      | nil => exact absurd hs (splitC_ne_nil x xs)
      | cons p ps =>
        rw [hs] at ih
        rw [joinSep_cons, ih]
        simp
    · rw [splitC_cons_eq c x xs h]
      cases hs : splitC c xs with
      | nil => exact absurd hs (splitC_ne_nil c xs)
      | cons p ps =>
        rw [hs] at ih
        simp only [List.headI, List.tail]
        cases ps with
        | nil =>
          simp only [joinSep] at ih ⊢
          rw [ih]
        | cons q qs =>
          rw [joinSep_cons] at ih ⊢
          rw [← ih]
          simp

/-- Splitting a separator-joined list of separator-free pieces recovers the
pieces, each non-first piece carrying the space inserted by the join. -/
theorem splitC_joinSepSp {c : Char} (hc : ¬ c = ' ') :
    ∀ (p : Str) (ps : List Str), (∀ q ∈ p :: ps, c ∉ q) →
      splitC c (joinSep [c, ' '] (p :: ps)) = p :: ps.map (fun q => ' ' :: q) := by
  intro p ps
  induction ps generalizing p with
  | nil =>
    intro h
    exact splitC_eq_single (h p (by simp))
  | cons q qs ih =>
    intro h
    have hp : c ∉ p := h p (by simp)
    have hrest : ∀ r ∈ q :: qs, c ∉ r := fun r hr => h r (by simp [List.mem_cons] at hr ⊢; tauto)
    have hstep : joinSep [c, ' '] (p :: q :: qs) = p ++ c :: ' ' :: joinSep [c, ' '] (q :: qs) := by
      rw [joinSep_cons]
      simp
    rw [hstep, splitC_append_cons _ hp,
      splitC_cons_eq c ' ' _ (fun hcon => hc hcon.symm), ih q hrest]
    simp

/-- Normalization (split, trim each entry, rejoin with separator-space) is
idempotent for any non-whitespace separator. -/
theorem normalize_idem {c : Char} (hc : isWS c = false) (v : Str) :
    joinSepSp c (normalizeEntries c (joinSepSp c (normalizeEntries c v)))
      = joinSepSp c (normalizeEntries c v) := by
  have hcs : ¬ c = ' ' := by
    intro h
    rw [h] at hc
    simp [isWS] at hc
  cases hs : splitC c v with
  | nil => exact absurd hs (splitC_ne_nil c v)
  | cons p ps =>
    have hmem : ∀ q ∈ trim p :: ps.map trim, c ∉ q := by
      intro q hq
      rcases List.mem_cons.mp hq with h1 | h1
      · subst h1
        exact not_mem_trim (not_mem_of_mem_splitC c v p (by simp [hs]))
      · rcases List.mem_map.mp h1 with ⟨r, hr, hrq⟩
        subst hrq
        exact not_mem_trim (not_mem_of_mem_splitC c v r (by simp [hs, hr]))
    have h2 : normalizeEntries c v = trim p :: ps.map trim := by
      simp [normalizeEntries, hs]
    rw [h2]
    simp only [joinSepSp, normalizeEntries]
    rw [splitC_joinSepSp hcs _ _ hmem]
    have h3 : (trim p :: (ps.map trim).map (fun q => ' ' :: q)).map trim
        = trim p :: ps.map trim := by
      simp only [List.map_cons, List.map_map]
      rw [trim_trim]
      congr 1
      apply List.map_congr_left
      intro a _
      simp only [Function.comp]
      rw [trim_cons_ws _ (by simp [isWS]), trim_trim]
    rw [h3]

/-! ### Lemmas about the classification loop -/

/-- Two groups are flatten-equal when they yield the same reconstructed
request line, the same header lines and the same body lines; the downstream
parser only depends on groups through these three projections. -/
def flattenEq (g g' : Groups) : Prop :=
  rawRequestLine g = rawRequestLine g' ∧
    g.headerLines = g'.headerLines ∧ g.bodyLines = g'.bodyLines

theorem flattenEq_refl (g : Groups) : flattenEq g g := ⟨rfl, rfl, rfl⟩

theorem flattenEq_trans {a b c : Groups} (h1 : flattenEq a b) (h2 : flattenEq b c) :
    flattenEq a c :=
  ⟨h1.1.trans h2.1, h1.2.1.trans h2.2.1, h1.2.2.trans h2.2.2⟩

theorem rawRequestLine_push (g : Groups) (c : Str) :
    rawRequestLine { g with requestLines := g.requestLines ++ [c] }
      = rawRequestLine g ++ trim c := by
  simp [rawRequestLine]

theorem flattenEq_push {g g' : Groups} (c : Str) (h : flattenEq g g') :
    flattenEq { g with requestLines := g.requestLines ++ [c] }
      { g' with requestLines := g'.requestLines ++ [c] } := by
  refine ⟨?_, h.2.1, h.2.2⟩
  rw [rawRequestLine_push, rawRequestLine_push, h.1]

theorem flattenEq_pushH {g g' : Groups} (c : Str) (h : flattenEq g g') :
    flattenEq { g with headerLines := g.headerLines ++ [c] }
      { g' with headerLines := g'.headerLines ++ [c] } := by
  refine ⟨?_, by simp [h.2.1], h.2.2⟩
  simpa [rawRequestLine] using h.1

theorem flattenEq_pushB {g g' : Groups} (c : Str) (h : flattenEq g g') :
    flattenEq { g with bodyLines := g.bodyLines ++ [c] }
      { g' with bodyLines := g'.bodyLines ++ [c] } := by
  refine ⟨?_, h.2.1, by simp [h.2.2]⟩
  simpa [rawRequestLine] using h.1

/-- Two runs of the classification loop on the same lines, state and previous
state preserve flatten-equality of the accumulators. -/
theorem classifyLoop_parallel :
    ∀ (n : Nat) (ls : List Str), ls.length ≤ n → ∀ s p g g', flattenEq g g' →
      flattenEq (classifyLoop ls s p g) (classifyLoop ls s p g') := by
  intro n
  induction n with
  | zero =>
    intro ls h s p g g' hEq
    have hnil : ls = [] := List.eq_nil_of_length_eq_zero (Nat.le_zero.mp h)
    subst hnil
    simpa [classifyLoop] using hEq
  | succ n ih =>
    intro ls h s p g g' hEq
    match ls with
    | [] => simpa [classifyLoop] using hEq
    | line :: rest =>
      have hr : rest.length ≤ n := by
        simp [List.length_cons] at h
        omega
      have hr2 : ∀ (x : Str) (rest2 : List Str), rest = x :: rest2 → rest2.length ≤ n := by
        intro x rest2 hx
        subst hx
        simp [List.length_cons] at hr
        omega
      cases s with
      | comment =>
        simp only [classifyLoop]
        split
        · split
          · exact ih rest hr _ _ _ _ hEq
          · exact ih rest hr _ _ _ _ hEq
        · split
          · exact ih rest hr _ _ _ _ hEq
          · exact ih rest hr _ _ _ _ hEq
      | requestLine =>
        simp only [classifyLoop]
        split
        · split
          · exact ih rest hr _ _ _ _ hEq
          · exact ih rest hr _ _ _ _ hEq
        · split
          · exact ih rest hr _ _ _ _ (flattenEq_push _ hEq)
          · split
            · exact ih rest hr _ _ _ _ (flattenEq_push _ hEq)
            · cases rest with
              | nil => exact flattenEq_push _ hEq
              | cons x rest2 =>
                exact ih rest2 (hr2 x rest2 rfl) _ _ _ _ (flattenEq_push _ hEq)
      | header =>
        simp only [classifyLoop]
        split
        · split
          · exact ih rest hr _ _ _ _ hEq
          · exact ih rest hr _ _ _ _ hEq
        · split
          · exact ih rest hr _ _ _ _ (flattenEq_pushH _ hEq)
          · cases rest with
            | nil => exact flattenEq_pushH _ hEq
            | cons x rest2 =>
              exact ih rest2 (hr2 x rest2 rfl) _ _ _ _ (flattenEq_pushH _ hEq)
      | body =>
        simp only [classifyLoop]
        split
        · split
          · exact ih rest hr _ _ _ _ hEq
          · exact ih rest hr _ _ _ _ hEq
        · exact ih rest hr _ _ _ _ (flattenEq_pushB _ hEq)

/-- The loop only uses its current line trimmed, so a pre-trimmed line
classifies identically. -/
theorem classifyLoop_trim_head (l : Str) (ls : List Str) (s : ParseState)
    (p : Option ParseState) (g : Groups) :
    classifyLoop (l :: ls) s p g = classifyLoop (trim l :: ls) s p g := by
  cases s <;> simp only [classifyLoop, trim_trim]

/-- One requestLine step whose next line is a continuation line stays in the
requestLine state and accumulates the current line. -/
theorem rl_step_cont (a nx : Str) (ls : List Str) (p : Option ParseState) (g : Groups)
    (ha : isCommentLine (trim a) = false) (hc : isContinuation (trim nx) = true) :
    classifyLoop (a :: nx :: ls) .requestLine p g
      = classifyLoop (nx :: ls) .requestLine p
          { g with requestLines := g.requestLines ++ [trim a] } := by
  conv_lhs => rw [classifyLoop]
  simp only [ha, Bool.false_eq_true, if_false, List.head?_cons, Option.map_some]
  rw [if_pos]
  simp [contNext, hc]

/-- A continuation-classified fragment is nonempty and begins with one of the
continuation characters. -/
theorem frag_head {f : Str} (hcont : isContinuation (trim f) = true) :
    ∃ c t, trim f = c :: t ∧ (c = '&' ∨ c = '?' ∨ c = '/') := by
  have hdw : (trim f).dropWhile isWS = trim f := (trim_eq_self_parts (trim_trim f)).1
  unfold isContinuation at hcont
  rw [hdw] at hcont
  cases hft : trim f with
  | nil => rw [hft] at hcont; simp at hcont
  | cons c t =>
    rw [hft] at hcont
    simp only [Bool.or_eq_true, beq_iff_eq] at hcont
    exact ⟨c, t, rfl, by tauto⟩

/-- A fragment that is a continuation line, not a comment line and not the
bare slash cannot turn into a comment line by appending further text. -/
theorem fragNotCommentAppend {f : Str} (hcont : isContinuation (trim f) = true)
    (hnc : isCommentLine (trim f) = false) (hns : trim f ≠ ['/']) (X : Str) :
    isCommentLine (trim f ++ X) = false := by
  obtain ⟨c, t, hct, hcs⟩ := frag_head hcont
  rw [hct]
  rcases hcs with h | h | h
  · subst h; simp [isCommentLine, chars, List.isPrefixOf]
  · subst h; simp [isCommentLine, chars, List.isPrefixOf]
  · subst h
    cases t with
    | nil => exact absurd hct hns
    | cons d t2 =>
      rw [hct] at hnc
      simp only [isCommentLine, chars] at hnc ⊢
      simp only [String.toList] at hnc ⊢
      simp only [List.cons_append, List.isPrefixOf] at hnc ⊢
      simpa using hnc

/-- Appending to a non-comment line other than the bare slash yields a comment
line only if the appended part already was one; contrapositive form. -/
theorem notComment_append_of {p M : Str} (hp : isCommentLine p = false)
    (hps : p ≠ ['/']) (hM : isCommentLine M = false) :
    isCommentLine (p ++ M) = false := by
  cases p with
  | nil => simpa using hM
  | cons c1 t =>
    cases t with
    | nil =>
      have hc1 : c1 ≠ '/' := by
        intro hcon
        exact hps (by rw [hcon])
      simp only [isCommentLine, chars, String.toList, List.cons_append,
        List.isPrefixOf]
      simp [Ne.symm hc1]
    | cons c2 t2 =>
      simp only [isCommentLine, chars, String.toList, List.cons_append,
        List.isPrefixOf] at hp ⊢
      simpa using hp

/-- Exchanging the head line of a requestLine-state run changes only the
accumulated request fragment, provided neither head is a comment line. -/
theorem rl_head_swap (a b : Str) (rest : List Str) (g g' : Groups)
    (ha : isCommentLine (trim a) = false) (hb : isCommentLine (trim b) = false)
    (hEq : flattenEq { g with requestLines := g.requestLines ++ [trim a] }
                     { g' with requestLines := g'.requestLines ++ [trim b] }) :
    flattenEq (classifyLoop (a :: rest) .requestLine none g)
              (classifyLoop (b :: rest) .requestLine none g') := by
  simp only [classifyLoop, ha, hb, Bool.false_eq_true, if_false]
  split
  · exact classifyLoop_parallel rest.length rest (Nat.le_refl _) _ _ _ _ hEq
  · split
    · exact classifyLoop_parallel rest.length rest (Nat.le_refl _) _ _ _ _ hEq
    · cases rest with
      | nil => exact hEq
      | cons x rest2 =>
        exact classifyLoop_parallel rest2.length rest2 (Nat.le_refl _) _ _ _ _ hEq

def fragOK (f : Str) : Prop :=
  isContinuation (trim f) = true ∧ isCommentLine (trim f) = false ∧ trim f ≠ ['/']

instance (f : Str) : Decidable (fragOK f) := by
  unfold fragOK
  infer_instance

theorem trim_map_flatten (fs : List Str) :
    trim ((fs.map trim).flatten) = (fs.map trim).flatten := by
  apply trim_flatten
  intro x hx
  rcases List.mem_map.mp hx with ⟨y, _, hy⟩
  subst hy
  exact trim_trim y

/-- Splitting the request line across continuation fragments classifies to
flatten-equal groups as putting the reconstructed line on one physical line. -/
theorem frag_equiv (frags : List Str) :
    ∀ (pending : Str) (rest : List Str) (g : Groups),
      trim pending = pending → isCommentLine pending = false → pending ≠ ['/'] →
      (∀ f ∈ frags, fragOK f) →
      flattenEq (classifyLoop (pending :: frags ++ rest) .requestLine none g)
                (classifyLoop ((pending ++ (frags.map trim).flatten) :: rest)
                  .requestLine none g) := by
  induction frags with
  | nil =>
    intro pending rest g _ _ _ _
    simpa using flattenEq_refl (classifyLoop (pending :: rest) .requestLine none g)
  | cons f fs ih =>
    intro pending rest g hp hpc hps hf
    obtain ⟨hfc, hfnc, hfns⟩ := hf f (by simp)
    have hfs : ∀ x ∈ fs, fragOK x := fun x hx => hf x (by simp [hx])
    have hM : trim f ++ (fs.map trim).flatten
        = ((f :: fs).map trim).flatten := by simp
    have hMtr : trim (trim f ++ (fs.map trim).flatten)
        = trim f ++ (fs.map trim).flatten :=
      trim_append (trim_trim f) (trim_map_flatten fs)
    have hMnc : isCommentLine (trim f ++ (fs.map trim).flatten) = false :=
      fragNotCommentAppend hfc hfnc hfns _
    have step1 : classifyLoop (pending :: (f :: fs) ++ rest) .requestLine none g
        = classifyLoop (f :: fs ++ rest) .requestLine none
            { g with requestLines := g.requestLines ++ [pending] } := by
      have := rl_step_cont pending f (fs ++ rest) none g (by rw [hp]; exact hpc) hfc
      rw [hp] at this
      simpa using this
    have step2 : classifyLoop (f :: fs ++ rest) .requestLine none
          { g with requestLines := g.requestLines ++ [pending] }
        = classifyLoop (trim f :: fs ++ rest) .requestLine none
            { g with requestLines := g.requestLines ++ [pending] } :=
      classifyLoop_trim_head _ _ _ _ _
    have step3 := ih (trim f) rest
      { g with requestLines := g.requestLines ++ [pending] }
      (trim_trim f) hfnc hfns hfs
    have step4 : flattenEq
        (classifyLoop ((trim f ++ (fs.map trim).flatten) :: rest) .requestLine none
          { g with requestLines := g.requestLines ++ [pending] })
        (classifyLoop ((pending ++ (trim f ++ (fs.map trim).flatten)) :: rest)
          .requestLine none g) := by
      apply rl_head_swap
      · rw [hMtr]; exact hMnc
      · rw [trim_append hp hMtr]
        exact notComment_append_of hpc hps hMnc
      · refine ⟨?_, rfl, rfl⟩
        rw [rawRequestLine_push, rawRequestLine_push, rawRequestLine_push,
          trim_trim, trim_trim, hMtr, trim_append hp hMtr, hp, List.append_assoc]
    have hfinal : pending ++ (trim f ++ (fs.map trim).flatten)
        = pending ++ ((f :: fs).map trim).flatten := by rw [hM]
    rw [step1, step2]
    rw [← hfinal]
    exact flattenEq_trans step3 step4

/-- Flatten-equal groups parse to the same result. -/
theorem parseFromGroups_congr {g g' : Groups} (h : flattenEq g g') :
    parseFromGroups g = parseFromGroups g' := by
  unfold parseFromGroups
  rw [h.1, h.2.1, h.2.2]

/-! ### Lemmas about URI resolution -/

/-- A request target that starts with a slash has no scheme, so the URL
constructor fails on it. -/
theorem parseURL_none_of_slash {t : Str} (h : (chars "/").isPrefixOf t = true) :
    parseURL t = none := by
  cases t with
  | nil => simp [chars, List.isPrefixOf] at h
  | cons c t' =>
    have hc : c = '/' := by
      simp [chars, List.isPrefixOf] at h
      exact h.symm
    subst hc
    unfold parseURL
    rw [trim_def, List.dropWhile_cons_of_neg (by decide), rdrop_cons]
    by_cases hr : rdrop t' = []
    · rw [if_pos hr]
      decide
    · rw [if_neg hr]
      simp [show Char.isAlpha '/' = false by decide]

theorem resolveURI_no_host {u : Str} (h : parseURL u = none) :
    resolveURI u none = .error "Host header is required for relative URI" := by
  unfold resolveURI
  rw [h]

theorem parseRequestLine_error_of {line : Str} {host : Option Str} {e : String}
    (h : resolveURI (requestUriOf line) host = .error e) :
    parseRequestLine line host = .error e := by
  unfold parseRequestLine
  rw [h]

/-! ### Lemmas about header combination -/

/-- The separator chosen for a repeated header name. -/
def sepFor (name : Str) : Char :=
  if lowerStr name = chars "cookie" then ';' else ','

theorem sepFor_ne_space (name : Str) : ¬ sepFor name = ' ' := by
  unfold sepFor
  split <;> decide

theorem normalizeEntries_joinSepSp {c : Char} (hc : ¬ c = ' ') (atoms : List Str)
    (hA : atoms ≠ []) (hAc : ∀ a ∈ atoms, c ∉ a ∧ trim a = a) :
    normalizeEntries c (joinSepSp c atoms) = atoms := by
  cases atoms with
  | nil => exact absurd rfl hA
  | cons p ps =>
    rw [joinSepSp, normalizeEntries,
      splitC_joinSepSp hc p ps (fun q hq => (hAc q hq).1)]
    simp only [List.map_cons, List.map_map]
    rw [(hAc p (by simp)).2]
    congr 1
    have hmap : List.map (trim ∘ fun q => ' ' :: q) ps = List.map id ps := by
      apply List.map_congr_left
      intro a ha
      simp only [Function.comp, id]
      rw [trim_cons_ws _ (by simp [isWS]), (hAc a (by simp [ha])).2]
    rw [hmap, List.map_id]

theorem validName_no_colon {n : Str} (h : validName n = true) : ':' ∉ n := by
  intro hc
  rw [validName, Bool.and_eq_true, List.all_eq_true] at h
  have := h.2 ':' hc
  simp at this

theorem splitC_mkLine (n v : Str) (hn : ':' ∉ n) :
    splitC ':' (mkHeaderLine n v) = n :: splitC ':' (' ' :: v) :=
  splitC_append_cons _ hn

theorem fieldValue_mkLine (n v : Str) (hn : ':' ∉ n) (htr : trim v = v) :
    trim (joinSep [':'] (splitC ':' (mkHeaderLine n v)).tail) = v := by
  rw [splitC_mkLine n v hn]
  simp only [List.tail]
  rw [joinSep_splitC, trim_cons_ws _ (by simp [isWS]), htr]

theorem trim_space_join (v : Str) (htr : trim v = v) :
    trim (joinSep [':'] (splitC ':' (' ' :: v))) = v := by
  rw [joinSep_splitC, trim_cons_ws _ (by simp [isWS]), htr]

theorem headerStep_start (n v : Str)
    (hn : validName n = true) (hv : validValue v = true) (htr : trim v = v) :
    headerStep ([], []) (mkHeaderLine n v) = .ok ([(n, v)], [(lowerStr n, n)]) := by
  have hcol := validName_no_colon hn
  unfold headerStep
  rw [splitC_mkLine n v hcol]
  simp only [List.headI, List.tail_cons]
  rw [trim_space_join v htr]
  simp [hn, hv, assocFind, assocSet]

theorem headerStep_repeat (name accV n v : Str)
    (hn : validName n = true) (hv : validValue v = true) (htr : trim v = v)
    (hl : lowerStr n = lowerStr name) :
    headerStep ([(name, accV)], [(lowerStr name, name)]) (mkHeaderLine n v)
      = .ok ([(name, joinSepSp (sepFor name)
                (normalizeEntries (sepFor name) accV ++ [v]))],
             [(lowerStr name, name)]) := by
  have hcol := validName_no_colon hn
  unfold headerStep
  rw [splitC_mkLine n v hcol]
  simp only [List.headI, List.tail_cons]
  rw [trim_space_join v htr]
  simp only [hn, hv, Bool.not_true, Bool.false_eq_true, if_false, hl]
  have hfind : assocFind [(lowerStr name, name)] (lowerStr name) = some name := by
    simp [assocFind, List.find?]
  rw [hfind]
  have hfind2 : assocFind [(name, accV)] name = some accV := by
    simp [assocFind, List.find?]
  have hsep : (if lowerStr name = chars "cookie" then ';' else ',') = sepFor name := rfl
  simp only [hfind2, hsep]
  simp [assocSet]

theorem parseHeadersLoop_repeats (name : Str) :
    ∀ (reps : List (Str × Str)) (atoms : List Str), atoms ≠ [] →
      (∀ a ∈ atoms, sepFor name ∉ a ∧ trim a = a) →
      (∀ pv ∈ reps, validName pv.1 = true ∧ validValue pv.2 = true ∧
        trim pv.2 = pv.2 ∧ sepFor name ∉ pv.2 ∧ lowerStr pv.1 = lowerStr name) →
      parseHeadersLoop (reps.map fun pv => mkHeaderLine pv.1 pv.2)
          ([(name, joinSepSp (sepFor name) atoms)], [(lowerStr name, name)])
        = .ok ([(name, joinSepSp (sepFor name) (atoms ++ reps.map (·.2)))],
               [(lowerStr name, name)]) := by
  intro reps
  induction reps with
  | nil =>
    intro atoms _ _ _
    simp [parseHeadersLoop]
  | cons pv rest ih =>
    intro atoms hA hAc hreps
    obtain ⟨h1, h2, h3, h4, h5⟩ := hreps pv (by simp)
    rw [List.map_cons]
    rw [parseHeadersLoop]
    rw [headerStep_repeat name _ pv.1 pv.2 h1 h2 h3 h5]
    rw [normalizeEntries_joinSepSp (sepFor_ne_space name) atoms hA hAc]
    rw [Except.bind]
    have hAc2 : ∀ a ∈ atoms ++ [pv.2], sepFor name ∉ a ∧ trim a = a := by
      intro a ha
      rcases List.mem_append.mp ha with h | h
      · exact hAc a h
      · simp at h
        subst h
        exact ⟨h4, h3⟩
    rw [ih (atoms ++ [pv.2]) (by simp) hAc2
      (fun q hq => hreps q (by simp [hq]))]
    simp

/-! ### The claims -/

/-- C1: the claim states that only the eight tokens GET, HEAD, POST, PUT,
DELETE, CONNECT, OPTIONS, TRACE are recognized as methods and that any other
leading token leaves the method at GET with the whole line as target.  The
code's regular expression additionally recognizes PATCH, a token outside the
declared `methods` enum: on `PATCH /x` the parser returns method `PATCH` with
target `/x` instead of defaulting to GET with the whole line as target. -/
theorem claim1_patch_method_code_bug :
    parseHttpRequest "PATCH /x\nHost: example.com"
        = .ok ⟨chars "PATCH", chars "/x", chars "http://example.com/x",
               chars "HTTP/1.1", [(chars "Host", chars "example.com")], none⟩
    ∧ chars "PATCH" ∉ methods
    ∧ chars "PATCH" ∈ regexMethods := by
  refine ⟨by decide, by decide, by decide⟩

/-- C2: the claim states that a document not starting with a request line
fails with "Request-line not starting with method".  The code never produces
that message: on the repository's own test input (a header line before the
request line) the second line is classified as a header line and parsing fails
with "Header field-name is not valid" instead. -/
theorem claim2_header_before_request_line_code_bug :
    parseHttpRequest "Host: example.com\nGET /api/path"
      = .error "Header field-name is not valid" := by
  decide

/-- C3: for a relative target starting with `/` and a truthy Host header
value, the resolved uri uses https exactly when the host's port (the segment
after the first colon) is 443 or 8443 and http otherwise, the default ports
443, 8443 and 80 are stripped from the host, and any other port is retained
in the composed uri. -/
theorem claim3_relative_uri_host_resolution (t h : Str)
    (h1 : (chars "/").isPrefixOf t = true) (h2 : h ≠ []) :
    resolveURI t (some h)
      = .ok (t, (if hostPort h = some (chars "443") ∨ hostPort h = some (chars "8443")
              then chars "https" else chars "http")
            ++ chars "://" ++ stripDefaultPort h ++ t)
    ∧ ((chars ":443").isSuffixOf h = false → (chars ":8443").isSuffixOf h = false →
        (chars ":80").isSuffixOf h = false → stripDefaultPort h = h) := by
  constructor
  · simp only [resolveURI, parseURL_none_of_slash h1]
    rw [if_pos ⟨h2, h1⟩]
  · intro hs1 hs2 hs3
    unfold stripDefaultPort
    rw [if_neg (by simp [hs1]), if_neg (by simp [hs2]), if_neg (by simp [hs3])]

/-- C3 witness at a concrete non-standard port. -/
theorem claim3_witness :
    resolveURI (chars "/a") (some (chars "ex.com:1234"))
      = .ok (chars "/a", chars "http://ex.com:1234/a") := by
  have h := (claim3_relative_uri_host_resolution (chars "/a") (chars "ex.com:1234")
    (by decide) (by decide)).1
  rw [h]
  decide

/-- C4: a document whose request target fails the URL constructor and that
has no Host header fails with "Host header is required for relative URI". -/
theorem claim4_missing_host (message : String) (hs : Headers)
    (hH : parseHeaders (docGroups message).headerLines = .ok hs)
    (hHost : getHeader hs (chars "host") = none)
    (hURL : parseURL (requestUriOf (rawRequestLine (docGroups message))) = none) :
    parseHttpRequest message = .error "Host header is required for relative URI" := by
  have hresolve : resolveURI (requestUriOf (rawRequestLine (docGroups message)))
      (getHeader hs (chars "host")) = .error "Host header is required for relative URI" := by
    rw [hHost]
    exact resolveURI_no_host hURL
  have hrl := parseRequestLine_error_of hresolve
  show parseFromGroups (docGroups message) = _
  unfold parseFromGroups
  simp only [hH]
  rw [hrl]

/-- C4 witness: the repository's own relative-target test input. -/
theorem claim4_witness :
    parseHttpRequest "GET /api/path" = .error "Host header is required for relative URI" :=
  claim4_missing_host "GET /api/path" [] (by decide) (by decide) (by decide)

/-- C5: the claim states that comment lines never change how surrounding
non-comment lines are classified.  After a comment block of two or more
lines, the code swallows the following non-comment line: with two leading
comment lines the request line `GET http://mursu.dev/api` is dropped and
parsing fails, while the same document with one comment line (or none)
parses successfully. -/
theorem claim5_multiline_comment_code_bug :
    parseHttpRequest "// a\n// b\nGET http://mursu.dev/api"
        = .error "Host header is required for relative URI"
    ∧ parseHttpRequest "// a\nGET http://mursu.dev/api"
        = .ok ⟨chars "GET", chars "/api", chars "http://mursu.dev/api",
               chars "HTTP/1.1", [], none⟩
    ∧ parseHttpRequest "GET http://mursu.dev/api"
        = .ok ⟨chars "GET", chars "/api", chars "http://mursu.dev/api",
               chars "HTTP/1.1", [], none⟩ := by
  refine ⟨by decide, by decide, by decide⟩

/-- C6 counterexample: `Foo, Bar` is the combined value of two occurrences of
`Example-Field`; parsing that combined value as a single header line twice
(re-combining it with itself) yields `Foo, Bar, Foo, Bar`, not the same
combined value without duplicated entries, refuting the claim as stated. -/
theorem claim6_counterexample :
    parseHeaders [mkHeaderLine (chars "Example-Field") (chars "Foo"),
                  mkHeaderLine (chars "Example-Field") (chars "Bar")]
      = .ok [(chars "Example-Field", chars "Foo, Bar")]
    ∧ parseHeaders [mkHeaderLine (chars "Example-Field") (chars "Foo, Bar"),
                    mkHeaderLine (chars "Example-Field") (chars "Foo, Bar")]
      = .ok [(chars "Example-Field", chars "Foo, Bar, Foo, Bar")] := by
  refine ⟨by decide, by decide⟩

/-- C6 amended: the combination's re-split step (split on the separator, trim
each entry, rejoin with separator plus space) is idempotent for every
non-whitespace separator, so existing combined entries are never reformatted
or duplicated by the normalization itself; appending the combined value as a
further header line, however, adds it as one new entry. -/
theorem claim6_amended_normalize_idem (c : Char) (v : Str) (hc : isWS c = false) :
    joinSepSp c (normalizeEntries c (joinSepSp c (normalizeEntries c v)))
      = joinSepSp c (normalizeEntries c v) :=
  normalize_idem hc v

/-- C6 witness at the comma separator and a concrete combined value. -/
theorem claim6_witness :
    isWS ',' = false
    ∧ joinSepSp ',' (normalizeEntries ','
          (joinSepSp ',' (normalizeEntries ',' (chars "Foo, Bar"))))
        = joinSepSp ',' (normalizeEntries ',' (chars "Foo, Bar")) :=
  ⟨by decide, claim6_amended_normalize_idem ',' (chars "Foo, Bar") (by decide)⟩

/-- C7: repeated header lines whose names agree case-insensitively are
combined onto the first occurrence: the output key keeps the first-seen
casing, and the values are joined with `; ` when the lowercased name is
`cookie` and with `, ` otherwise. -/
theorem claim7_repeated_header_combination (name v0 : Str) (reps : List (Str × Str))
    (hn : validName name = true) (hv0 : validValue v0 = true) (ht0 : trim v0 = v0)
    (hc0 : sepFor name ∉ v0)
    (hreps : ∀ pv ∈ reps, validName pv.1 = true ∧ validValue pv.2 = true ∧
      trim pv.2 = pv.2 ∧ sepFor name ∉ pv.2 ∧ lowerStr pv.1 = lowerStr name) :
    parseHeaders (mkHeaderLine name v0 :: reps.map fun pv => mkHeaderLine pv.1 pv.2)
      = .ok [(name, joinSepSp (sepFor name) (v0 :: reps.map (·.2)))] := by
  unfold parseHeaders
  have hstep : parseHeadersLoop
      (mkHeaderLine name v0 :: reps.map fun pv => mkHeaderLine pv.1 pv.2) ([], [])
      = .ok ([(name, joinSepSp (sepFor name) (v0 :: reps.map (·.2)))],
             [(lowerStr name, name)]) := by
    rw [parseHeadersLoop, headerStep_start name v0 hn hv0 ht0, Except.bind]
    have hpair : (([(name, v0)], [(lowerStr name, name)]) : Headers × Headers)
        = ([(name, joinSepSp (sepFor name) [v0])], [(lowerStr name, name)]) := rfl
    rw [hpair, parseHeadersLoop_repeats name reps [v0] (by simp)
      (fun a ha => by simp at ha; subst ha; exact ⟨hc0, ht0⟩) hreps]
    simp
  rw [hstep]

/-- C7 witness: two cookie headers in different casings combine with `; `
under the first-seen key. -/
theorem claim7_witness :
    parseHeaders [mkHeaderLine (chars "Cookie") (chars "a=1"),
                  mkHeaderLine (chars "cookie") (chars "b=2")]
      = .ok [(chars "Cookie", chars "a=1; b=2")] := by
  have h := claim7_repeated_header_combination (chars "Cookie") (chars "a=1")
    [(chars "cookie", chars "b=2")] (by decide) (by decide) (by decide) (by decide)
    (by decide)
  exact h.trans (by decide)

/-- C8: the body parser returns no body for no body lines without requiring a
content type, fails with "No Content-Type header set for body" when body
lines exist but the content-type header is absent, and otherwise joins the
body lines with single spaces and trims the result. -/
theorem claim8_body_rules (lines : List Str) (ct : Option Str) :
    (lines = [] → parseBody lines ct = .ok none)
    ∧ (lines ≠ [] → ct = none →
        parseBody lines ct = .error "No Content-Type header set for body")
    ∧ (lines ≠ [] → ct ≠ none →
        parseBody lines ct = .ok (some (trim (joinSep [' '] lines)))) := by
  refine ⟨fun h => by simp [parseBody, h],
          fun h1 h2 => by simp [parseBody, h1, h2],
          fun h1 h2 => by simp [parseBody, h1, h2]⟩

/-- C8 witness: one body line with no content type fails. -/
theorem claim8_witness :
    ([chars "x"] ≠ ([] : List Str))
    ∧ parseBody [chars "x"] none = .error "No Content-Type header set for body" :=
  ⟨by decide, (claim8_body_rules [chars "x"] none).2.1 (by decide) rfl⟩

/-- C9 counterexample: splitting the target `https://mursu.dev/api` into the
fragments `https:` and `//mursu.dev/api` satisfies the claim's continuation
condition (the fragment starts with `/`), yet the fragment is classified as a
comment line and dropped, so the split document fails to parse while the
one-line document succeeds. -/
theorem claim9_counterexample :
    parseHttpRequest "GET https:\n//mursu.dev/api"
        = .error "Host header is required for relative URI"
    ∧ parseHttpRequest "GET https://mursu.dev/api"
        = .ok ⟨chars "GET", chars "/api", chars "https://mursu.dev/api",
               chars "HTTP/1.1", [], none⟩
    ∧ isContinuation (trim (chars "//mursu.dev/api")) = true := by
  refine ⟨by decide, by decide, by decide⟩

/-- C9 amended: splitting the request target across continuation lines yields
the same parse as the reconstructed one-line document (trimming each fragment
and concatenating with no separator), provided each continuation fragment
(trimmed) starts with `&`, `?` or `/` but is neither a comment line
(starting `//`) nor the bare `/`, and the first physical line (trimmed) is
neither a comment line nor the bare `/`. -/
theorem claim9_amended_split_equiv (line0 : Str) (frags rest : List Str)
    (h0 : isCommentLine (trim line0) = false) (h1 : trim line0 ≠ ['/'])
    (hf : ∀ f ∈ frags, fragOK f) :
    parseHttpRequestLines (line0 :: frags ++ rest)
      = parseHttpRequestLines ((trim line0 ++ (frags.map trim).flatten) :: rest) := by
  unfold parseHttpRequestLines
  apply parseFromGroups_congr
  rw [List.cons_append]
  rw [classifyLoop_trim_head line0 (frags ++ rest) .requestLine none emptyGroups]
  exact frag_equiv frags (trim line0) rest emptyGroups (trim_trim line0) h0 h1 hf

/-- C9 witness: the repository's own multi-line request-line test. -/
theorem claim9_witness :
    parseHttpRequestLines
        [chars "GET https://mursu.dev", chars "    /path", chars "    /to",
         chars "    /endpoint", chars "    ?query=asd", chars "    &filter=false"]
      = parseHttpRequestLines
          [chars "GET https://mursu.dev/path/to/endpoint?query=asd&filter=false"] := by
  have h := claim9_amended_split_equiv (chars "GET https://mursu.dev")
      [chars "    /path", chars "    /to", chars "    /endpoint",
       chars "    ?query=asd", chars "    &filter=false"] []
      (by decide) (by decide) (by decide)
  rw [List.append_nil] at h
  exact h.trans (by decide)

/-- C10: a request target that fails the URL constructor and does not start
with `/` fails with "Host header is required for relative URI" regardless of
the Host header, and the empty input document fails the same way. -/
theorem claim10_non_slash_relative (t : Str) (host : Option Str)
    (hu : parseURL t = none) (hp : (chars "/").isPrefixOf t = false) :
    resolveURI t host = .error "Host header is required for relative URI"
    ∧ parseHttpRequest "" = .error "Host header is required for relative URI" := by
  constructor
  · cases host with
    | none => exact resolveURI_no_host hu
    | some h =>
      simp only [resolveURI, hu]
      rw [if_neg]
      intro hcon
      exact absurd hcon.2 (by simp [hp])
  · decide

/-- C10 witness: the relative target `api/path` fails even with a Host
header present. -/
theorem claim10_witness :
    parseURL (chars "api/path") = none
    ∧ (chars "/").isPrefixOf (chars "api/path") = false
    ∧ resolveURI (chars "api/path") (some (chars "example.com"))
        = .error "Host header is required for relative URI" :=
  ⟨by decide, by decide,
   (claim10_non_slash_relative (chars "api/path") (some (chars "example.com"))
     (by decide) (by decide)).1⟩

end HttpSyntax
